import Mathlib

/-!
Shallow embedding of the symbolic-regression GP engine of the `eureka`
repository (`src/backend/gp/`): protected scalar primitives, the fitness
formula, MSE over possibly non-finite samples, lexicographic tournament
selection, population pruning, the simplest-good hall of fame, checkpoint
capture/restore, the Pareto-front scan, and the individual-report record.

Python floats are modelled by `ℝ` where transcendental functions occur
(primitives, fitness) and by `ℚ` where only field arithmetic and
comparisons occur (metrics, selection, hall of fame), keeping those parts
executable.  Where IEEE non-finite values are semantically relevant
(`calculate_mse`), floats are modelled by an explicit inductive `FV` with
`nan`/`inf`/`ninf` constructors.
-/

/-! ## Tree size limit (`GPEngine.MAX_TREE_SIZE`, engine.py line 120) -/

/-- Hard cap on tree size: `MAX_TREE_SIZE = 20` in `GPEngine`. -/
def MAX_TREE_SIZE : ℕ := 20

/-! ## Protected scalar primitives (primitives.py lines 18-148)

Each Python function wraps its arithmetic in `try`/`except` and tests
`math.isinf`/`math.isnan`.  Over `ℝ` the arithmetic is total and every
value is finite, so those branches are unreachable and only the explicit
range clamps (`abs(result) > 1e10`, `abs(right) < 1e-10`, argument
clamping) remain. -/

/-- `protected_div`: returns `1.0` when the divisor is within `1e-10` of zero. -/
noncomputable def protected_div (left right : ℝ) : ℝ :=
  if |right| < 1e-10 then 1 else left / right

/-- `protected_log`: returns `0.0` on non-positive arguments. -/
noncomputable def protected_log (x : ℝ) : ℝ :=
  if x ≤ 0 then 0 else Real.log x

/-- `protected_sqrt`: square root of the absolute value. -/
noncomputable def protected_sqrt (x : ℝ) : ℝ :=
  Real.sqrt |x|

/-- `protected_pow`: clamps the exponent to `[-5, 5]`, uses `|base| + 1e-10`,
and returns `1.0` when the magnitude of the result exceeds `1e10`. -/
noncomputable def protected_pow (base expo : ℝ) : ℝ :=
  let e := max (-5) (min 5 expo)
  let result := (|base| + 1e-10) ^ e
  if |result| > 1e10 then 1 else result

/-- `protected_exp`: clamps the argument to `[-30, 30]`. -/
noncomputable def protected_exp (x : ℝ) : ℝ :=
  Real.exp (max (-30) (min 30 x))

/-- `protected_tan`: returns `0.0` when the magnitude of the result exceeds
`1e10` (Lean's `Real.tan` is total, mirroring the protected total function). -/
noncomputable def protected_tan (x : ℝ) : ℝ :=
  if |Real.tan x| > 1e10 then 0 else Real.tan x

/-- `protected_sin`: plain sine (the `isnan` branch is unreachable over `ℝ`). -/
noncomputable def protected_sin (x : ℝ) : ℝ :=
  Real.sin x

/-- `protected_cos`: plain cosine. -/
noncomputable def protected_cos (x : ℝ) : ℝ :=
  Real.cos x

/-- `safe_add`: returns the raw sum; the source only replaces the result by
`0.0` when it is `inf` or `nan`, which cannot happen over `ℝ`.  Note that the
source has no `abs(result) > 1e10` test here. -/
noncomputable def safe_add (a b : ℝ) : ℝ :=
  a + b

/-- `safe_sub`: returns the raw difference; like `safe_add` it has no
magnitude clamp in the source. -/
noncomputable def safe_sub (a b : ℝ) : ℝ :=
  a - b

/-- `safe_mul`: returns `0.0` when the magnitude of the product exceeds `1e10`. -/
noncomputable def safe_mul (a b : ℝ) : ℝ :=
  if |a * b| > 1e10 then 0 else a * b

/-! ## Fitness formula (`GPEngine._evaluate_individual`, engine.py lines 263-288)

The method computes `mse = calculate_mse(y_train, pred)` on the training
split and combines it with the adaptive-parsimony penalty.  The formula is
embedded parameterised by the (finite) training MSE and the adaptive
parsimony coefficient; `np.isfinite(fitness)` is vacuously true over `ℝ`,
leaving the `fitness > 1e10` clamp. -/

/-- Fitness of `GPEngine._evaluate_individual`, as a function of the adaptive
parsimony coefficient, the training MSE and the tree size (`complexity`). -/
noncomputable def evaluate_individual_fitness (adaptive_parsimony mse : ℝ)
    (complexity : ℕ) : ℝ :=
  let complexity_penalty := adaptive_parsimony * (complexity : ℝ) ^ (1.5 : ℝ)
  let fitness := mse + complexity_penalty
  let fitness := if complexity > MAX_TREE_SIZE then fitness + 1e6 else fitness
  if fitness > 1e10 then 1e10 else fitness

/-- Fitness formula as the specification states it: MSE plus
`adaptive_parsimony · complexity^1.5`, plus `1e6` iff the size exceeds
`MAX_TREE_SIZE`, the total replaced by `1e10` when it exceeds `1e10`. -/
noncomputable def spec_fitness_formula (adaptive_parsimony mse : ℝ)
    (complexity : ℕ) : ℝ :=
  let raw := mse + adaptive_parsimony * (complexity : ℝ) ^ (1.5 : ℝ) +
    (if complexity > MAX_TREE_SIZE then (1e6 : ℝ) else 0)
  if raw > 1e10 then 1e10 else raw

/-- C1: the fitness read by selection equals the training MSE plus
`adaptive_parsimony` times the tree size raised to the power 1.5, plus an
extra `1e6` when the size exceeds `MAX_TREE_SIZE = 20`, the result replaced
by `1e10` whenever it exceeds `1e10`; in particular it never exceeds `1e10`. -/
theorem evaluate_individual_fitness_correct (ap mse : ℝ) (c : ℕ) :
    evaluate_individual_fitness ap mse c = spec_fitness_formula ap mse c ∧
    evaluate_individual_fitness ap mse c ≤ 1e10 := by
  constructor
  · unfold evaluate_individual_fitness spec_fitness_formula
    by_cases h : c > MAX_TREE_SIZE <;> simp only [h, if_true, if_false, add_zero]
  · unfold evaluate_individual_fitness
    dsimp only
    by_cases h : c > MAX_TREE_SIZE <;> simp only [h, if_true, if_false] <;>
      split_ifs with h2 <;> first | exact le_of_not_lt h2 | norm_num

/-- C3 counterexample: `safe_add 6e9 6e9` evaluates to `1.2e10`, a value whose
absolute value exceeds `1e10` and that is not replaced by `0`, refuting the
claim that every protected operation returns a value of magnitude at most
`1e10` and that `add` returns `0` when the raw result exceeds `1e10`.  The
inputs and the sum are exactly representable as doubles, so the real-valued
model agrees with the floating-point execution here. -/
theorem safe_add_exceeds_bound_counterexample :
    safe_add 6e9 6e9 = 1.2e10 ∧ ¬ (|safe_add 6e9 6e9| ≤ 1e10) ∧
    safe_add 6e9 6e9 ≠ 0 := by
  refine ⟨by norm_num [safe_add], ?_, by norm_num [safe_add]⟩
  unfold safe_add
  rw [show (6e9 : ℝ) + 6e9 = 12e9 by norm_num]
  rw [abs_of_nonneg (by norm_num : (0 : ℝ) ≤ (12e9 : ℝ))]
  norm_num

/-- C3 amended: every protected scalar operation is a total function on `ℝ`;
`mul`, `pow` and `tan` clamp their results to magnitude at most `1e10`,
`sin` and `cos` are bounded by `1`, while `add` and `sub` return the raw sum
and difference (replaced by `0` only on non-finite floating-point results)
and therefore carry no `1e10` magnitude bound. -/
theorem protected_ops_total_and_bounds (a b x : ℝ) :
    |safe_mul a b| ≤ 1e10 ∧ |protected_pow a b| ≤ 1e10 ∧
    |protected_tan x| ≤ 1e10 ∧ |protected_sin x| ≤ 1 ∧ |protected_cos x| ≤ 1 ∧
    safe_add a b = a + b ∧ safe_sub a b = a - b := by
  refine ⟨?_, ?_, ?_, ?_, ?_, rfl, rfl⟩
  · unfold safe_mul
    split_ifs with h
    · norm_num
    · exact le_of_not_lt h
  · unfold protected_pow
    dsimp only
    split_ifs with h
    · norm_num
    · exact le_of_not_lt h
  · unfold protected_tan
    split_ifs with h
    · norm_num
    · exact le_of_not_lt h
  · exact Real.abs_sin_le_one x
  · exact Real.abs_cos_le_one x

/-! ## Float values with IEEE non-finite elements (for `calculate_mse`)

`calculate_mse` (fitness.py lines 10-34) is sensitive to non-finite array
entries, so its floats are modelled by an explicit type `FV` with `nan`,
`inf` and `ninf` alongside finite rationals. -/

/-- Model of a double: a finite rational or one of the IEEE specials. -/
inductive FV where
  | fin : ℚ → FV
  | nan : FV
  | inf : FV
  | ninf : FV
deriving DecidableEq

/-- `np.isfinite` on the float model. -/
def FV.isFinite : FV → Bool
  | FV.fin _ => true
  | _ => false

/-- The rational carried by a finite value (junk `0` on specials). -/
def FV.toQ : FV → ℚ
  | FV.fin q => q
  | _ => 0

/-- IEEE subtraction on the float model. -/
def FV.sub : FV → FV → FV
  | FV.nan, _ => FV.nan
  | _, FV.nan => FV.nan
  | FV.inf, FV.inf => FV.nan
  | FV.inf, _ => FV.inf
  | FV.ninf, FV.ninf => FV.nan
  | FV.ninf, _ => FV.ninf
  | FV.fin _, FV.inf => FV.ninf
  | FV.fin _, FV.ninf => FV.inf
  | FV.fin a, FV.fin b => FV.fin (a - b)

/-- IEEE squaring on the float model (`x ** 2`). -/
def FV.sq : FV → FV
  | FV.fin q => FV.fin (q ^ 2)
  | FV.nan => FV.nan
  | _ => FV.inf

/-- IEEE addition on the float model (used for the sum inside `np.mean`). -/
def FV.add : FV → FV → FV
  | FV.nan, _ => FV.nan
  | _, FV.nan => FV.nan
  | FV.inf, FV.ninf => FV.nan
  | FV.inf, _ => FV.inf
  | FV.ninf, FV.inf => FV.nan
  | FV.ninf, _ => FV.ninf
  | FV.fin _, FV.inf => FV.inf
  | FV.fin _, FV.ninf => FV.ninf
  | FV.fin a, FV.fin b => FV.fin (a + b)

/-- Division of a float by a (positive) sample count, as in `np.mean`. -/
def FV.divNat : FV → ℕ → FV
  | FV.fin q, n => FV.fin (q / n)
  | v, _ => v

/-- `np.mean`: the IEEE sum of the list divided by its length. -/
def FV.mean (l : List FV) : FV :=
  (l.foldl FV.add (FV.fin 0)).divNat l.length

/-- `calculate_mse` (fitness.py lines 10-34).  The mask keeps exactly the
samples whose *prediction* is finite — the target is not tested.  The two
source guards `not np.any(mask)` and `len(y_true_valid) == 0` test the same
emptiness and are modelled by one test; the `try/except` wrapper is not
modelled because every embedded step is total. -/
def calculate_mse (y_true y_pred : List FV) : ℚ :=
  let valid := (List.zip y_true y_pred).filter (fun p => p.2.isFinite)
  if valid.isEmpty then 1e10
  else
    match FV.mean (valid.map (fun p => (p.1.sub p.2).sq)) with
    | FV.fin m => m
    | _ => 1e10

/-- MSE as claim C5 states it: computed over only the samples where both the
prediction and the target are finite, with sentinel `1e10` when no finite
samples remain or the mean is non-finite. -/
def mse_spec_claim (y_true y_pred : List FV) : ℚ :=
  let valid := (List.zip y_true y_pred).filter
    (fun p => p.1.isFinite && p.2.isFinite)
  if valid.isEmpty then 1e10
  else
    match FV.mean (valid.map (fun p => (p.1.sub p.2).sq)) with
    | FV.fin m => m
    | _ => 1e10

/-- MSE as amended: samples are kept exactly when the *prediction* is finite;
the sentinel `1e10` is returned when no sample remains or when a retained
target is non-finite (which makes the mean non-finite); otherwise the result
is the exact mean of the squared errors of the retained samples. -/
def mse_spec_amended (y_true y_pred : List FV) : ℚ :=
  let valid := (List.zip y_true y_pred).filter (fun p => p.2.isFinite)
  if valid.isEmpty then 1e10
  else if valid.any (fun p => !p.1.isFinite) then 1e10
  else ((valid.map (fun p => (p.1.toQ - p.2.toQ) ^ 2)).sum) / valid.length

/-- A value is finite exactly when it is a `fin`. -/
theorem FV.isFinite_iff (v : FV) : v.isFinite = true ↔ ∃ q, v = FV.fin q := by
  cases v <;> simp [FV.isFinite]

/-- Adding to a non-finite accumulator never produces a finite value. -/
theorem FV.add_not_finite_left (a b : FV) (h : a.isFinite = false) :
    (FV.add a b).isFinite = false := by
  cases a <;> cases b <;> simp_all [FV.add, FV.isFinite]

/-- Adding a non-finite value never produces a finite value. -/
theorem FV.add_not_finite_right (a b : FV) (h : b.isFinite = false) :
    (FV.add a b).isFinite = false := by
  cases a <;> cases b <;> simp_all [FV.add, FV.isFinite]

/-- An IEEE sum over a list containing a non-finite value (or started from a
non-finite accumulator) is non-finite. -/
theorem FV.foldl_add_not_finite (l : List FV) (init : FV)
    (h : init.isFinite = false ∨ ∃ x ∈ l, x.isFinite = false) :
    (l.foldl FV.add init).isFinite = false := by
  induction l generalizing init with
  | nil =>
    rcases h with h | ⟨x, hx, _⟩
    · exact h
    · cases hx
  | cons y ys ih =>
    rcases h with h | ⟨x, hx, hxf⟩
    · exact ih _ (Or.inl (FV.add_not_finite_left _ _ h))
    · rcases List.mem_cons.mp hx with rfl | hx'
      · exact ih _ (Or.inl (FV.add_not_finite_right _ _ hxf))
      · exact ih _ (Or.inr ⟨x, hx', hxf⟩)

/-- An IEEE sum over finite values is the finite rational sum. -/
theorem FV.foldl_add_finite (l : List FV) (a : ℚ)
    (h : ∀ x ∈ l, x.isFinite = true) :
    l.foldl FV.add (FV.fin a) = FV.fin (a + (l.map FV.toQ).sum) := by
  induction l generalizing a with
  | nil => simp
  | cons y ys ih =>
    obtain ⟨q, rfl⟩ := (FV.isFinite_iff y).mp (h y (List.mem_cons_self y ys))
    have := ih (a + q) (fun x hx => h x (List.mem_cons_of_mem _ hx))
    simp only [List.foldl_cons, FV.add, this, List.map_cons, List.sum_cons,
      FV.toQ]
    ring_nf

/-- Dividing by a sample count preserves (non-)finiteness. -/
theorem FV.isFinite_divNat (v : FV) (n : ℕ) :
    (v.divNat n).isFinite = v.isFinite := by
  cases v <;> simp [FV.divNat, FV.isFinite]

/-- Squared error of a non-finite target against a finite prediction is
non-finite. -/
theorem FV.sq_sub_not_finite (t p : FV) (ht : t.isFinite = false)
    (hp : p.isFinite = true) : ((t.sub p).sq).isFinite = false := by
  obtain ⟨q, rfl⟩ := (FV.isFinite_iff p).mp hp
  cases t <;> simp_all [FV.sub, FV.sq, FV.isFinite]

/-- C5 counterexample: with targets `[inf, 0]` and predictions `[0, 0]`, the
source keeps both samples (only predictions are masked), the mean is
non-finite and the sentinel `1e10` is returned, while the claim's
both-finite masking yields `0`; so the claim is false on this input. -/
theorem calculate_mse_nonfinite_target_counterexample :
    calculate_mse [FV.inf, FV.fin 0] [FV.fin 0, FV.fin 0] = 1e10 ∧
    mse_spec_claim [FV.inf, FV.fin 0] [FV.fin 0, FV.fin 0] = 0 ∧
    (1e10 : ℚ) ≠ 0 := by
  refine ⟨rfl, ?_, by norm_num⟩
  unfold mse_spec_claim
  norm_num [FV.isFinite, FV.mean, FV.divNat, FV.sub, FV.sq, FV.toQ, FV.add]

/-- C5 amended: the MSE is computed over only the samples whose *prediction*
is finite (non-finite targets are not masked); the sentinel `1e10` is
returned when no such sample remains or when the computed mean is
non-finite, in particular whenever a retained target is non-finite;
otherwise the result is the exact mean of the squared errors. -/
theorem calculate_mse_eq_amended_spec (y_true y_pred : List FV) :
    calculate_mse y_true y_pred = mse_spec_amended y_true y_pred := by
  unfold calculate_mse mse_spec_amended
  set valid := (List.zip y_true y_pred).filter (fun p => p.2.isFinite)
    with hvalid
  by_cases hempty : valid.isEmpty
  · simp only [hempty, if_true]
  · simp only [hempty, if_false, Bool.false_eq_true]
    by_cases hbad : valid.any (fun p => !p.1.isFinite)
    · simp only [hbad, if_true]
      obtain ⟨x, hx, hxf⟩ := List.any_eq_true.mp hbad
      have hx2 : x.2.isFinite = true := by
        have := List.mem_filter.mp hx
        exact this.2
      have hx1 : x.1.isFinite = false := by
        simpa using hxf
      have hsq : ((x.1.sub x.2).sq).isFinite = false :=
        FV.sq_sub_not_finite _ _ hx1 hx2
      have hsum : ((valid.map (fun p => (p.1.sub p.2).sq)).foldl FV.add
          (FV.fin 0)).isFinite = false := by
        refine FV.foldl_add_not_finite _ _ (Or.inr ⟨_, ?_, hsq⟩)
        exact List.mem_map_of_mem _ hx
      have hmean : (FV.mean (valid.map (fun p => (p.1.sub p.2).sq))).isFinite
          = false := by
        unfold FV.mean
        rw [FV.isFinite_divNat]
        exact hsum
      cases hm : FV.mean (valid.map (fun p => (p.1.sub p.2).sq)) with
      | fin q => rw [hm] at hmean; simp [FV.isFinite] at hmean
      | nan => rfl
      | inf => rfl
      | ninf => rfl
    · simp only [hbad, if_false, Bool.false_eq_true]
      have hall : ∀ x ∈ valid, x.1.isFinite = true := by
        intro x hx
        by_contra hcon
        have : valid.any (fun p => !p.1.isFinite) = true :=
          List.any_eq_true.mpr ⟨x, hx, by simpa using hcon⟩
        exact hbad this
      have hmap : valid.map (fun p => (p.1.sub p.2).sq) =
          valid.map (fun p => FV.fin ((p.1.toQ - p.2.toQ) ^ 2)) := by
        refine List.map_congr_left ?_
        intro x hx
        obtain ⟨a, ha⟩ := (FV.isFinite_iff x.1).mp (hall x hx)
        obtain ⟨b, hb⟩ := (FV.isFinite_iff x.2).mp (List.mem_filter.mp hx).2
        rw [ha, hb]
        simp [FV.sub, FV.sq, FV.toQ]
      have hfinsum : List.foldl FV.add (FV.fin 0)
          (valid.map (fun p => FV.fin ((p.1.toQ - p.2.toQ) ^ 2))) =
          FV.fin ((valid.map (fun p => (p.1.toQ - p.2.toQ) ^ 2)).sum) := by
        rw [FV.foldl_add_finite]
        · rw [List.map_map]
          simp only [Function.comp_def, FV.toQ, zero_add]
        · intro x hx
          obtain ⟨p, _, rfl⟩ := List.mem_map.mp hx
          rfl
      unfold FV.mean
      rw [hmap, hfinsum, List.length_map]
      simp only [FV.divNat]

/-! ## Stable sort (models Python's stable `list.sort`)

Python's `list.sort` is a stable ascending sort; sortedness together with
stability determines the output uniquely, so the stable insertion sort
below has the same behaviour on every input. -/

/-- Stable insertion: the new element goes before the first element it is
`le` to, hence after none of the equal elements already present. -/
def stableInsert {α : Type} (le : α → α → Bool) (x : α) : List α → List α
  | [] => [x]
  | y :: ys => if le x y then x :: y :: ys else y :: stableInsert le x ys

/-- Stable ascending insertion sort. -/
def stableSort {α : Type} (le : α → α → Bool) (l : List α) : List α :=
  l.foldr (stableInsert le) []

/-- Inserting permutes to a cons. -/
theorem stableInsert_perm {α : Type} (le : α → α → Bool) (x : α)
    (l : List α) : List.Perm (stableInsert le x l) (x :: l) := by
  induction l with
  | nil => exact List.Perm.refl _
  | cons y ys ih =>
    by_cases h : le x y
    · simp [stableInsert, h]
    · simp only [stableInsert, h, if_false, Bool.false_eq_true]
      exact (ih.cons y).trans (List.Perm.swap x y ys)

/-- Sorting permutes the list. -/
theorem stableSort_perm {α : Type} (le : α → α → Bool) (l : List α) :
    List.Perm (stableSort le l) l := by
  induction l with
  | nil => exact List.Perm.refl _
  | cons x xs ih => exact (stableInsert_perm le x _).trans (ih.cons x)

/-- Membership in an insertion. -/
theorem mem_stableInsert {α : Type} (le : α → α → Bool) (x z : α)
    (l : List α) : z ∈ stableInsert le x l ↔ z = x ∨ z ∈ l :=
  ((stableInsert_perm le x l).mem_iff).trans List.mem_cons

/-- Inserting into a `le`-sorted list keeps it sorted, for a total
transitive `le`. -/
theorem stableInsert_pairwise {α : Type} (le : α → α → Bool)
    (htot : ∀ a b, le a b = false → le b a = true)
    (htrans : ∀ a b c, le a b = true → le b c = true → le a c = true)
    (x : α) (l : List α) (h : l.Pairwise (fun a b => le a b = true)) :
    (stableInsert le x l).Pairwise (fun a b => le a b = true) := by
  induction l with
  | nil => simp [stableInsert]
  | cons y ys ih =>
    obtain ⟨hy, hys⟩ := List.pairwise_cons.mp h
    by_cases hxy : le x y = true
    · simp only [stableInsert, hxy, if_true]
      refine List.pairwise_cons.mpr ⟨?_, h⟩
      intro z hz
      rcases List.mem_cons.mp hz with rfl | hz'
      · exact hxy
      · exact htrans x y z hxy (hy z hz')
    · simp only [stableInsert, hxy, if_false, Bool.false_eq_true]
      refine List.pairwise_cons.mpr ⟨?_, ih hys⟩
      intro z hz
      rcases (mem_stableInsert le x z ys).mp hz with hz1 | hz'
      · rw [hz1]; exact htot x y (Bool.not_eq_true _ ▸ hxy)
      · exact hy z hz'

/-- The stable sort is sorted, for a total transitive `le`. -/
theorem stableSort_pairwise {α : Type} (le : α → α → Bool)
    (htot : ∀ a b, le a b = false → le b a = true)
    (htrans : ∀ a b c, le a b = true → le b c = true → le a c = true)
    (l : List α) :
    (stableSort le l).Pairwise (fun a b => le a b = true) := by
  induction l with
  | nil => simp [stableSort]
  | cons x xs ih => exact stableInsert_pairwise le htot htrans x _ ih

/-- The head of the sorted list is `le` every element of the input. -/
theorem stableSort_head_le {α : Type} (le : α → α → Bool)
    (htot : ∀ a b, le a b = false → le b a = true)
    (htrans : ∀ a b c, le a b = true → le b c = true → le a c = true)
    (hrefl : ∀ a, le a a = true)
    (l : List α) (b : α) (bs : List α) (h : stableSort le l = b :: bs) :
    ∀ y ∈ l, le b y = true := by
  intro y hy
  have hy' : y ∈ b :: bs := h ▸ (stableSort_perm le l).mem_iff.mpr hy
  rcases List.mem_cons.mp hy' with rfl | hy''
  · exact hrefl y
  · have hp := stableSort_pairwise le htot htrans l
    rw [h] at hp
    exact (List.pairwise_cons.mp hp).1 y hy''

/-! ## Lexicographic tournament selection (`sel_lexicographic`, engine.py
lines 47-76)

The engine registers this selector with `tournsize = tournament_size`
(default 7) and `epsilon = 0.05` (engine.py lines 246-248); the aspirants
are a `random.sample` (drawn without replacement) of the population.  One
tournament is embedded as a function of the sampled aspirant list; the
selector repeats it `k` times. -/

/-- A tournament aspirant: its (valid) fitness value and its tree size. -/
structure TInd where
  fitness : ℚ
  size : ℕ
deriving DecidableEq

/-- The epsilon the engine registers for selection (engine.py line 248). -/
def SEL_EPSILON : ℚ := 0.05

/-- The fitness comparison used by `aspirants.sort(key=...)`. -/
def fitLe (a b : TInd) : Bool := decide (a.fitness ≤ b.fitness)

/-- Python's `min(similar, key=len)`: the first element of minimal size. -/
def minBySize (x : TInd) (xs : List TInd) : TInd :=
  xs.foldl (fun acc y => if y.size < acc.size then y else acc) x

/-- One tournament of `sel_lexicographic`: the aspirants are sorted by
fitness ascending (Python's stable `list.sort`), `best_fitness` is the
head's fitness, `similar` keeps the aspirants whose fitness is within
`ε · max(1, |best_fitness|)` of it, and the shortest member of `similar`
wins (`min` keeps the earliest on ties).  `none` models the exceptions
Python raises on an empty sample (the second branch is unreachable: the
best aspirant is always in its own band). -/
def sel_lexicographic_winner (aspirants : List TInd) : Option TInd :=
  match stableSort fitLe aspirants with
  | [] => none
  | best :: rest =>
    match (best :: rest).filter (fun i =>
        decide (|i.fitness - best.fitness| <
          SEL_EPSILON * max 1 |best.fitness|)) with
    | [] => none
    | s :: ss => some (minBySize s ss)

/-- Minimum fitness value of an aspirant list (`0` on the empty list). -/
def minFitness : List TInd → ℚ
  | [] => 0
  | x :: xs => xs.foldl (fun m y => min m y.fitness) x.fitness

/-- A fitness fold with `min` is bounded by its initial value. -/
theorem foldl_min_le_init (xs : List TInd) (a : ℚ) :
    xs.foldl (fun m y => min m y.fitness) a ≤ a := by
  induction xs generalizing a with
  | nil => exact le_refl a
  | cons z zs ih =>
    exact le_trans (ih (min a z.fitness)) (min_le_left _ _)

/-- A fitness fold with `min` is bounded by every member's fitness. -/
theorem foldl_min_le_mem (xs : List TInd) (a : ℚ) :
    ∀ y ∈ xs, xs.foldl (fun m y => min m y.fitness) a ≤ y.fitness := by
  induction xs generalizing a with
  | nil => intro y hy; cases hy
  | cons z zs ih =>
    intro y hy
    rcases List.mem_cons.mp hy with rfl | hy'
    · exact le_trans (foldl_min_le_init zs _) (min_le_right _ _)
    · exact ih (min a z.fitness) y hy'

/-- `minFitness` bounds every member's fitness from below. -/
theorem minFitness_le (l : List TInd) : ∀ y ∈ l, minFitness l ≤ y.fitness := by
  cases l with
  | nil => intro y hy; cases hy
  | cons x xs =>
    intro y hy
    rcases List.mem_cons.mp hy with rfl | hy'
    · exact foldl_min_le_init xs y.fitness
    · exact foldl_min_le_mem xs x.fitness y hy'

/-- A fitness fold with `min` is its initial value or a member's fitness. -/
theorem foldl_min_attained (xs : List TInd) (a : ℚ) :
    xs.foldl (fun m y => min m y.fitness) a = a ∨
    ∃ y ∈ xs, xs.foldl (fun m y => min m y.fitness) a = y.fitness := by
  induction xs generalizing a with
  | nil => exact Or.inl rfl
  | cons z zs ih =>
    rcases ih (min a z.fitness) with h | ⟨y, hy, hyf⟩
    · rcases min_choice a z.fitness with hm | hm
      · exact Or.inl (by rw [List.foldl_cons, h, hm])
      · exact Or.inr ⟨z, List.mem_cons_self z zs,
          by rw [List.foldl_cons, h, hm]⟩
    · exact Or.inr ⟨y, List.mem_cons_of_mem z hy, hyf⟩

/-- On a nonempty list the minimum fitness is attained. -/
theorem minFitness_attained (l : List TInd) (h : l ≠ []) :
    ∃ y ∈ l, y.fitness = minFitness l := by
  cases l with
  | nil => exact absurd rfl h
  | cons x xs =>
    rcases foldl_min_attained xs x.fitness with h1 | ⟨y, hy, hyf⟩
    · exact ⟨x, List.mem_cons_self x xs, h1.symm⟩
    · exact ⟨y, List.mem_cons_of_mem x hy, hyf.symm⟩

/-- `minBySize` returns a member of minimal size (the input head counts as
a member). -/
theorem minBySize_spec (x : TInd) (xs : List TInd) :
    (minBySize x xs = x ∨ minBySize x xs ∈ xs) ∧
    (minBySize x xs).size ≤ x.size ∧
    ∀ y ∈ xs, (minBySize x xs).size ≤ y.size := by
  induction xs generalizing x with
  | nil => exact ⟨Or.inl rfl, le_refl _, by intro y hy; cases hy⟩
  | cons z zs ih =>
    have hcons : minBySize x (z :: zs) =
        minBySize (if z.size < x.size then z else x) zs := rfl
    by_cases h : z.size < x.size
    · rw [hcons, if_pos h]
      obtain ⟨hmem, hle, hall⟩ := ih z
      refine ⟨?_, le_trans hle (le_of_lt h), ?_⟩
      · rcases hmem with h1 | h1
        · exact Or.inr (by rw [h1]; exact List.mem_cons_self z zs)
        · exact Or.inr (List.mem_cons_of_mem z h1)
      · intro y hy
        rcases List.mem_cons.mp hy with rfl | hy'
        · exact hle
        · exact hall y hy'
    · rw [hcons, if_neg h]
      obtain ⟨hmem, hle, hall⟩ := ih x
      refine ⟨?_, hle, ?_⟩
      · rcases hmem with h1 | h1
        · exact Or.inl h1
        · exact Or.inr (List.mem_cons_of_mem z h1)
      · intro y hy
        rcases List.mem_cons.mp hy with rfl | hy'
        · exact le_trans hle (le_of_not_lt h)
        · exact hall y hy'

/-- The `fitLe` comparison is total. -/
theorem fitLe_total (a b : TInd) (hab : fitLe a b = false) :
    fitLe b a = true := by
  simp only [fitLe, decide_eq_false_iff_not, not_le] at hab
  simp only [fitLe, decide_eq_true_eq]
  exact le_of_lt hab

/-- The `fitLe` comparison is transitive. -/
theorem fitLe_trans (a b c : TInd) (hab : fitLe a b = true)
    (hbc : fitLe b c = true) : fitLe a c = true := by
  simp only [fitLe, decide_eq_true_eq] at hab hbc ⊢
  exact le_trans hab hbc

/-- The `fitLe` comparison is reflexive. -/
theorem fitLe_refl (a : TInd) : fitLe a a = true := by
  simp [fitLe]

/-- C4: a tournament winner of the lexicographic selection is a sample
member whose fitness lies within `ε · max(1, |f*|)` of the sample's minimum
fitness `f*` (with `ε = 0.05`), and it has minimal tree size among all
sample members in that band. -/
theorem sel_lexicographic_winner_spec (aspirants : List TInd) (w : TInd)
    (hw : sel_lexicographic_winner aspirants = some w) :
    w ∈ aspirants ∧
    |w.fitness - minFitness aspirants| <
      SEL_EPSILON * max 1 |minFitness aspirants| ∧
    ∀ y ∈ aspirants,
      |y.fitness - minFitness aspirants| <
        SEL_EPSILON * max 1 |minFitness aspirants| → w.size ≤ y.size := by
  unfold sel_lexicographic_winner at hw
  split at hw
  · exact absurd hw (by simp)
  next best rest hsort =>
    split at hw
    · exact absurd hw (by simp)
    next s ss hfil =>
      have hne : aspirants ≠ [] := by
        intro h0
        rw [h0] at hsort
        cases hsort
      have hbmem : best ∈ aspirants := by
        have hmem : best ∈ stableSort fitLe aspirants := by
          rw [hsort]; exact List.mem_cons_self _ _
        exact (stableSort_perm fitLe aspirants).mem_iff.mp hmem
      have hble : ∀ y ∈ aspirants, best.fitness ≤ y.fitness := by
        intro y hy
        have := stableSort_head_le fitLe fitLe_total fitLe_trans fitLe_refl
          aspirants best rest hsort y hy
        simpa [fitLe] using this
      have hbf : best.fitness = minFitness aspirants := by
        obtain ⟨y, hy, hyf⟩ := minFitness_attained aspirants hne
        exact le_antisymm (hyf ▸ hble y hy) (minFitness_le aspirants best hbmem)
      have hwv : w = minBySize s ss := by
        injection hw with h
        exact h.symm
      obtain ⟨hmem, hle0, hall⟩ := minBySize_spec s ss
      have hwmem : w ∈ s :: ss := by
        rcases hmem with h1 | h1
        · rw [hwv, h1]; exact List.mem_cons_self s ss
        · rw [hwv]; exact List.mem_cons_of_mem s h1
      have hwfil : w ∈ (best :: rest).filter (fun i =>
          decide (|i.fitness - best.fitness| <
            SEL_EPSILON * max 1 |best.fitness|)) := by
        rw [hfil]
        exact hwmem
      have hwsort : w ∈ best :: rest := (List.mem_filter.mp hwfil).1
      have hwband : |w.fitness - best.fitness| <
          SEL_EPSILON * max 1 |best.fitness| := by
        have := (List.mem_filter.mp hwfil).2
        simpa using this
      refine ⟨?_, ?_, ?_⟩
      · have hmem2 : w ∈ stableSort fitLe aspirants := by
          rw [hsort]; exact hwsort
        exact (stableSort_perm fitLe aspirants).mem_iff.mp hmem2
      · rw [← hbf]
        exact hwband
      · intro y hy hyband
        have hysort : y ∈ best :: rest := by
          have hmem3 : y ∈ stableSort fitLe aspirants :=
            (stableSort_perm fitLe aspirants).mem_iff.mpr hy
          rw [hsort] at hmem3
          exact hmem3
        have hyfil : y ∈ (best :: rest).filter (fun i =>
            decide (|i.fitness - best.fitness| <
              SEL_EPSILON * max 1 |best.fitness|)) := by
          refine List.mem_filter.mpr ⟨hysort, ?_⟩
          simp only [decide_eq_true_eq]
          rw [hbf]
          exact hyband
        rw [hfil] at hyfil
        rcases List.mem_cons.mp hyfil with rfl | hy'
        · rw [hwv]; exact hle0
        · rw [hwv]; exact hall y hy'

/-- C4 witness: on the concrete sample `[⟨10,5⟩, ⟨10,2⟩, ⟨50,1⟩]` the
tournament winner is `⟨10,2⟩`: within the band of the minimum fitness `10`
and of minimal size there. -/
theorem sel_lexicographic_winner_spec_witness :
    (⟨10, 2⟩ : TInd) ∈ ([⟨10, 5⟩, ⟨10, 2⟩, ⟨50, 1⟩] : List TInd) ∧
    |(⟨10, 2⟩ : TInd).fitness - minFitness [⟨10, 5⟩, ⟨10, 2⟩, ⟨50, 1⟩]| <
      SEL_EPSILON * max 1 |minFitness [⟨10, 5⟩, ⟨10, 2⟩, ⟨50, 1⟩]| ∧
    ∀ y ∈ ([⟨10, 5⟩, ⟨10, 2⟩, ⟨50, 1⟩] : List TInd),
      |y.fitness - minFitness [⟨10, 5⟩, ⟨10, 2⟩, ⟨50, 1⟩]| <
        SEL_EPSILON * max 1 |minFitness [⟨10, 5⟩, ⟨10, 2⟩, ⟨50, 1⟩]| →
      (⟨10, 2⟩ : TInd).size ≤ y.size :=
  sel_lexicographic_winner_spec [⟨10, 5⟩, ⟨10, 2⟩, ⟨50, 1⟩] ⟨10, 2⟩ (by
    norm_num [sel_lexicographic_winner, stableSort, stableInsert, fitLe,
      SEL_EPSILON, minBySize, List.filter])

/-! ## Expression trees and population pruning (engine.py lines 387-400)

`_setup_deap` (engine.py lines 255-259) guards `mate` and `mutate` with
`gp.staticLimit(key=len, max_value=MAX_TREE_SIZE)`, and `_prune_population`
replaces any offspring still larger than `MAX_TREE_SIZE` by a fresh
`toolbox.individual()`.  The fresh individual comes from `genHalfAndHalf`
with `max_ = max_depth ≤ 4`, whose only bound is the tree *height*; its
size is never re-checked. -/

/-- GP expression tree: terminals, unary and binary primitive nodes (the
primitive set of primitives.py has arities 1 and 2 only). -/
inductive GPExpr where
  | leaf : GPExpr
  | node1 : GPExpr → GPExpr
  | node2 : GPExpr → GPExpr → GPExpr
deriving DecidableEq

/-- Number of nodes, i.e. `len(individual)` on a DEAP `PrimitiveTree`. -/
def GPExpr.size : GPExpr → ℕ
  | GPExpr.leaf => 1
  | GPExpr.node1 a => 1 + a.size
  | GPExpr.node2 a b => 1 + a.size + b.size

/-- DEAP tree height: a lone terminal has height `0`; `genHalfAndHalf` with
`max_ = max_depth` only produces trees of height at most `max_depth`
(here at most `4`, since `max_depth = min(max_depth, MAX_TREE_DEPTH)`). -/
def GPExpr.height : GPExpr → ℕ
  | GPExpr.leaf => 0
  | GPExpr.node1 a => 1 + a.height
  | GPExpr.node2 a b => 1 + max a.height b.height

/-- `GPEngine._prune_population`: each individual whose size exceeds
`MAX_TREE_SIZE` is replaced in place by a fresh `toolbox.individual()`;
`fresh i` models the generator draw used at slot `i`.  The replacement's
size is not re-checked. -/
def prune_population (fresh : ℕ → GPExpr) (pop : List GPExpr) :
    List GPExpr :=
  pop.mapIdx (fun i e => if MAX_TREE_SIZE < e.size then fresh i else e)

/-- The full binary tree of height `n`: a legal `genFull` output when every
drawn primitive is binary (e.g. all of `add`, `sub`, `mul`, `div` enabled). -/
def fullTree : ℕ → GPExpr
  | 0 => GPExpr.leaf
  | n + 1 => GPExpr.node2 (fullTree n) (fullTree n)

/-- C2 (code bug): the engine documents a hard cap of 20 nodes, but the
fresh tree substituted by `_prune_population` is only height-bounded:
`fullTree 4` is within the generator's bound (`height ≤ 4`) yet has
`31 > 20` nodes, and pruning a population whose only member is oversized
with such a fresh draw commits a 31-node tree past the last size guard
before `population[:] = offspring`. -/
theorem prune_population_retains_oversized_tree :
    (fullTree 4).height ≤ 4 ∧ (fullTree 4).size = 31 ∧
    prune_population (fun _ => fullTree 4) [fullTree 4] = [fullTree 4] ∧
    MAX_TREE_SIZE < 31 := by
  refine ⟨by decide, by decide, by decide, by decide⟩

/-! ## Simplest-good hall of fame (engine.py lines 583-607)

`_update_simplest_hof` calls DEAP's `HallOfFame.insert` directly.  That
`insert` deep-copies the item and places it by fitness (best, i.e. lowest
raw fitness, first) but never removes anything: only `HallOfFame.update`
enforces `maxsize`, and it is not called here. -/

/-- A population member as seen by the simplest-good HOF: fitness validity
flag, fitness value, tree size, and its (deterministic) train R². -/
structure SInd where
  valid : Bool
  fitness : ℚ
  size : ℕ
  r2 : ℚ
deriving DecidableEq

/-- DEAP `HallOfFame.insert`: bisect by fitness with the best (lowest raw)
fitness first; a newly inserted item goes before existing items of equal
fitness.  No eviction and no `maxsize` check. -/
def hofInsert (ind : SInd) : List SInd → List SInd
  | [] => [ind]
  | x :: xs =>
    if ind.fitness ≤ x.fitness then ind :: x :: xs else x :: hofInsert ind xs

/-- `GPEngine._update_simplest_hof`: for each population member with valid
fitness and train R² at least `0.8`, insert it when the HOF is below
`maxsize`, or when its size is smaller than the size of the *last* member
(`simplest_hof[-1]`, the worst by fitness); `insert` never evicts.  On an
empty full HOF Python would raise `IndexError` into the bare
`except: pass`; `getLastD` with the candidate itself yields the same skip. -/
def update_simplest_hof (maxsize : ℕ) (pop : List SInd) (hof : List SInd) :
    List SInd :=
  pop.foldl (fun h ind =>
    if ind.valid = false then h
    else if 0.8 ≤ ind.r2 then
      if h.length < maxsize then hofInsert ind h
      else if ind.size < (h.getLastD ind).size then hofInsert ind h
      else h
    else h) hof

/-- A full simplest-good HOF with ten members (fitness ascending, all with
train R² `1 ≥ 0.8` and size `3`). -/
def hofTen : List SInd :=
  [⟨true, 1, 3, 1⟩, ⟨true, 2, 3, 1⟩, ⟨true, 3, 3, 1⟩, ⟨true, 4, 3, 1⟩,
   ⟨true, 5, 3, 1⟩, ⟨true, 6, 3, 1⟩, ⟨true, 7, 3, 1⟩, ⟨true, 8, 3, 1⟩,
   ⟨true, 9, 3, 1⟩, ⟨true, 10, 3, 1⟩]

/-- C6 (code bug): with the hall of fame already holding its `maxsize = 10`
members, a valid candidate with train R² `1 ≥ 0.8` and size `2` smaller
than the last member's size `3` is inserted *without any eviction*, so the
hall of fame grows to 11 members, contradicting the claimed `maxsize`
bound and eviction of the largest member. -/
theorem update_simplest_hof_exceeds_maxsize :
    hofTen.length = 10 ∧
    (update_simplest_hof 10 [⟨true, 0, 2, 1⟩] hofTen).length = 11 := by
  constructor
  · rfl
  · norm_num [update_simplest_hof, hofTen, hofInsert, List.getLastD]

/-! ## Checkpoint capture, restore, and the `evolve` prologue (engine.py
lines 402-418 and 662-696)

`get_checkpoint_state` stores `self.population` and `self.hof` themselves
in the returned dict — no copy is taken — so the snapshot holds references
into the live engine.  The reference structure is made explicit by a small
object heap: engine and snapshot store object identifiers, and the
generation loop's `population[:] = offspring` (engine.py line 479) is an
in-place write to the referenced object. -/

/-- Heap of list objects addressed by identifier; each object is a
population or hall-of-fame list, represented by its member tree sizes. -/
structure Heap where
  objs : List (List ℕ)
deriving DecidableEq

/-- Dereference an object identifier. -/
def Heap.read (h : Heap) (r : ℕ) : List ℕ :=
  h.objs.getD r []

/-- In-place update of the object behind an identifier, as Python's
`population[:] = offspring` mutates the shared list object. -/
def Heap.writeInPlace (h : Heap) (r : ℕ) (v : List ℕ) : Heap :=
  ⟨h.objs.set r v⟩

/-- Engine fields involved in checkpointing: generation counter,
references to the live population and best-fitness HOF objects, the
generation stats (abstracted to a list of generation numbers), and the
adaptive/base parsimony coefficients. -/
structure EngineState where
  current_generation : ℕ
  popRef : ℕ
  hofRef : ℕ
  generation_stats : List ℕ
  adaptive_parsimony : ℚ
  base_parsimony : ℚ
deriving DecidableEq

/-- The checkpoint dict built by `get_checkpoint_state` (engine.py lines
662-687): generation counter, the *references* to the live population and
HOF objects, the generation stats, and the adaptive parsimony.  The
`config` and `data_info` blocks are immutable derived data and are
omitted. -/
structure CheckpointState where
  generation : ℕ
  populationRef : ℕ
  hofRef : ℕ
  generation_stats : List ℕ
  adaptive_parsimony : ℚ
deriving DecidableEq

/-- `GPEngine.get_checkpoint_state`: packs the current fields, sharing the
population and HOF objects by reference. -/
def get_checkpoint_state (e : EngineState) : CheckpointState :=
  ⟨e.current_generation, e.popRef, e.hofRef, e.generation_stats,
   e.adaptive_parsimony⟩

/-- Read the snapshot's population contents through the heap. -/
def snapshot_population (h : Heap) (s : CheckpointState) : List ℕ :=
  h.read s.populationRef

/-- `GPEngine.restore_from_checkpoint` (engine.py lines 689-696): replaces
the corresponding engine fields in place. -/
def restore_from_checkpoint (e : EngineState) (c : CheckpointState) :
    EngineState :=
  { e with
    current_generation := c.generation,
    popRef := c.populationRef,
    hofRef := c.hofRef,
    generation_stats := c.generation_stats,
    adaptive_parsimony := c.adaptive_parsimony }

/-- The prologue of `GPEngine.evolve` (engine.py lines 406-418): the
generation counter is reset to `0`, the adaptive parsimony to the base
value, and a brand-new random population object (`toolbox.population`) is
allocated and bound to `self.population`, dropping whatever
`self.population` referred to.  `freshPop` is the newly created random
population. -/
def evolve_entry (h : Heap) (e : EngineState) (freshPop : List ℕ) :
    Heap × EngineState :=
  (⟨h.objs ++ [freshPop]⟩,
   { e with
     current_generation := 0,
     adaptive_parsimony := e.base_parsimony,
     popRef := h.objs.length })

/-- Generation number of the first evolution-loop iteration after entry
(`self.current_generation += 1`, engine.py line 447). -/
def first_generation_number (e : EngineState) : ℕ :=
  e.current_generation + 1

/-- C7 counterexample: capture a snapshot of an engine whose population
object `#0` holds `[3]`, then mutate that population in place to `[25]`;
reading the population through the snapshot now yields `[25]`, not the
captured `[3]` — the snapshot is not insulated from later mutations. -/
theorem checkpoint_snapshot_aliasing_counterexample :
    snapshot_population (Heap.writeInPlace ⟨[[3]]⟩ 0 [25])
      (get_checkpoint_state ⟨7, 0, 0, [], 1, 1⟩) = [25] ∧
    snapshot_population ⟨[[3]]⟩ (get_checkpoint_state ⟨7, 0, 0, [], 1, 1⟩)
      = [3] := by
  exact ⟨rfl, rfl⟩

/-- `List.getD` after `List.set` at the same, in-bounds index. -/
theorem getD_set_self {α : Type} (l : List α) (i : ℕ) (v d : α)
    (h : i < l.length) : (l.set i v).getD i d = v := by
  induction l generalizing i with
  | nil => cases h
  | cons x xs ih =>
    cases i with
    | zero => rfl
    | succ j => exact ih j (Nat.lt_of_succ_lt_succ h)

/-- C7 amended: `get_checkpoint_state` stores the engine's live population
by reference rather than deep-copying, so an in-place population update
performed after capture (as `population[:] = offspring` does each
generation) is visible through the returned snapshot. -/
theorem checkpoint_snapshot_shares_population (h : Heap) (e : EngineState)
    (newpop : List ℕ) (href : e.popRef < h.objs.length) :
    (get_checkpoint_state e).populationRef = e.popRef ∧
    snapshot_population (h.writeInPlace e.popRef newpop)
      (get_checkpoint_state e) = newpop := by
  refine ⟨rfl, ?_⟩
  unfold snapshot_population Heap.read Heap.writeInPlace get_checkpoint_state
  exact getD_set_self h.objs e.popRef newpop [] href

/-- C7 witness: the shared-reference theorem applied to the concrete heap
`[[3],[4]]`, engine with population object `#0`, and in-place update to
`[9]`. -/
theorem checkpoint_snapshot_shares_population_witness :
    (⟨5, 0, 1, [], 1, 1⟩ : EngineState).popRef <
      (⟨[[3], [4]]⟩ : Heap).objs.length ∧
    ((get_checkpoint_state ⟨5, 0, 1, [], 1, 1⟩).populationRef =
      (⟨5, 0, 1, [], 1, 1⟩ : EngineState).popRef ∧
     snapshot_population (Heap.writeInPlace ⟨[[3], [4]]⟩ 0 [9])
       (get_checkpoint_state ⟨5, 0, 1, [], 1, 1⟩) = [9]) :=
  ⟨by decide,
   checkpoint_snapshot_shares_population ⟨[[3], [4]]⟩ ⟨5, 0, 1, [], 1, 1⟩
     [9] (by decide)⟩

/-- C8 (code bug): restoring a checkpoint taken at generation `5` does set
the engine fields from the snapshot, but the subsequent `evolve` call
resets the generation counter to `0`, rebinds `self.population` to a
freshly created random population object (dropping the restored one), and
its first loop iteration is generation `1`, not `6`: evolution restarts
instead of resuming. -/
theorem restore_then_evolve_resets_generation :
    restore_from_checkpoint ⟨0, 9, 9, [], 1, 1⟩ ⟨5, 0, 0, [7], 2⟩
      = ⟨5, 0, 0, [7], 2, 1⟩ ∧
    (evolve_entry ⟨[[2, 3]]⟩
      (restore_from_checkpoint ⟨0, 9, 9, [], 1, 1⟩ ⟨5, 0, 0, [7], 2⟩)
      [1, 1]).2.current_generation = 0 ∧
    first_generation_number (evolve_entry ⟨[[2, 3]]⟩
      (restore_from_checkpoint ⟨0, 9, 9, [], 1, 1⟩ ⟨5, 0, 0, [7], 2⟩)
      [1, 1]).2 = 1 ∧
    (evolve_entry ⟨[[2, 3]]⟩
      (restore_from_checkpoint ⟨0, 9, 9, [], 1, 1⟩ ⟨5, 0, 0, [7], 2⟩)
      [1, 1]).2.popRef ≠
      (⟨5, 0, 0, [7], 2⟩ : CheckpointState).populationRef ∧
    Heap.read (evolve_entry ⟨[[2, 3]]⟩
      (restore_from_checkpoint ⟨0, 9, 9, [], 1, 1⟩ ⟨5, 0, 0, [7], 2⟩)
      [1, 1]).1
      (evolve_entry ⟨[[2, 3]]⟩
        (restore_from_checkpoint ⟨0, 9, 9, [], 1, 1⟩ ⟨5, 0, 0, [7], 2⟩)
        [1, 1]).2.popRef = [1, 1] ∧
    (⟨5, 0, 0, [7], 2⟩ : CheckpointState).generation + 1 = 6 := by
  exact ⟨rfl, rfl, rfl, by decide, rfl, rfl⟩

/-! ## Pareto front (`GPEngine._calculate_pareto_front`, engine.py lines
637-655)

Candidates are the best-fitness hall-of-fame members converted by
`_individual_to_dict`; only their `complexity` and `test_r_squared`
(present on every candidate dict, the error fallback included) matter
here. -/

/-- A Pareto candidate: complexity and test R² of a HOF member. -/
structure PCand where
  complexity : ℕ
  testR2 : ℚ
deriving DecidableEq

/-- Comparison used by `candidates.sort(key=lambda x: x["complexity"])`. -/
def compLe (a b : PCand) : Bool := decide (a.complexity ≤ b.complexity)

/-- One step of the running-max scan: keep the candidate iff its test R²
strictly exceeds the running maximum (`-inf` initially, modelled `none`). -/
def paretoStep (acc : List PCand × Option ℚ) (c : PCand) :
    List PCand × Option ℚ :=
  match acc.2 with
  | none => (acc.1 ++ [c], some c.testR2)
  | some m => if m < c.testR2 then (acc.1 ++ [c], some c.testR2) else acc

/-- `GPEngine._calculate_pareto_front`: sort by complexity ascending
(Python's stable sort), then keep each candidate whose test R² strictly
exceeds the running maximum over all previously scanned candidates. -/
def calculate_pareto_front (cands : List PCand) : List PCand :=
  ((stableSort compLe cands).foldl paretoStep ([], none)).1

/-- The `compLe` comparison is total. -/
theorem compLe_total (a b : PCand) (hab : compLe a b = false) :
    compLe b a = true := by
  simp only [compLe, decide_eq_false_iff_not, not_le] at hab
  simp only [compLe, decide_eq_true_eq]
  exact le_of_lt hab

/-- The `compLe` comparison is transitive. -/
theorem compLe_trans (a b c : PCand) (hab : compLe a b = true)
    (hbc : compLe b c = true) : compLe a c = true := by
  simp only [compLe, decide_eq_true_eq] at hab hbc ⊢
  exact le_trans hab hbc

/-- The scan only ever appends, and the appended part is a subsequence of
the scanned input. -/
theorem foldl_paretoStep_sublist (l : List PCand) (acc : List PCand)
    (m : Option ℚ) :
    ∃ s, (l.foldl paretoStep (acc, m)).1 = acc ++ s ∧ s.Sublist l := by
  induction l generalizing acc m with
  | nil => exact ⟨[], by simp, List.Sublist.refl []⟩
  | cons c cs ih =>
    have hstep : paretoStep (acc, m) c = (acc ++ [c], some c.testR2) ∨
        paretoStep (acc, m) c = (acc, m) := by
      unfold paretoStep
      cases m with
      | none => exact Or.inl rfl
      | some q =>
        by_cases hq : q < c.testR2
        · exact Or.inl (by simp [hq])
        · exact Or.inr (by simp [hq])
    rcases hstep with hstep | hstep
    · rw [List.foldl_cons, hstep]
      obtain ⟨s, hs, hsub⟩ := ih (acc ++ [c]) (some c.testR2)
      refine ⟨c :: s, ?_, hsub.cons₂ c⟩
      rw [hs, List.append_assoc]
      rfl
    · rw [List.foldl_cons, hstep]
      obtain ⟨s, hs, hsub⟩ := ih acc m
      exact ⟨s, hs, hsub.cons c⟩

/-- Invariant of the running-max scan: the emitted list has strictly
increasing test R², the running maximum is `none` only at the start, and
it bounds every emitted test R². -/
def ParetoInv (p : List PCand × Option ℚ) : Prop :=
  List.Chain' (fun a b => a.testR2 < b.testR2) p.1 ∧
  (p.2 = none → p.1 = []) ∧
  ∀ q, p.2 = some q → ∀ x ∈ p.1, x.testR2 ≤ q

/-- `paretoStep` preserves the scan invariant. -/
theorem paretoStep_inv (p : List PCand × Option ℚ) (c : PCand)
    (h : ParetoInv p) : ParetoInv (paretoStep p c) := by
  obtain ⟨accl, accm⟩ := p
  obtain ⟨hch, hnone, hsome⟩ := h
  cases accm with
  | none =>
    have h1 : accl = [] := hnone rfl
    subst h1
    refine ⟨by simp [paretoStep], by simp [paretoStep], ?_⟩
    intro q hq x hx
    simp only [paretoStep, List.nil_append, List.mem_singleton] at hq hx ⊢
    injection hq with hq
    rw [hx, hq]
  | some m =>
    by_cases hlt : m < c.testR2
    · have hstep : paretoStep (accl, some m) c =
          (accl ++ [c], some c.testR2) := by
        simp [paretoStep, hlt]
      rw [hstep]
      refine ⟨?_, by simp, ?_⟩
      · refine List.Chain'.append hch (List.chain'_singleton c) ?_
        intro x hx y hy
        simp only [List.head?_cons, Option.mem_def, Option.some_inj] at hy
        subst hy
        have hx' : x ∈ accl := List.mem_of_mem_getLast? hx
        exact lt_of_le_of_lt (hsome m rfl x hx') hlt
      · intro q hq x hx
        injection hq with hq
        subst hq
        rcases List.mem_append.mp hx with hx' | hx'
        · exact le_of_lt (lt_of_le_of_lt (hsome m rfl x hx') hlt)
        · rw [List.mem_singleton.mp hx']
    · have hstep : paretoStep (accl, some m) c = (accl, some m) := by
        simp [paretoStep, hlt]
      rw [hstep]
      refine ⟨hch, ?_, ?_⟩
      · intro h0
        cases h0
      · intro q hq x hx
        injection hq with hq
        subst hq
        exact hsome m rfl x hx

/-- The scan invariant holds after folding over any input list. -/
theorem foldl_paretoStep_inv (l : List PCand) (p : List PCand × Option ℚ)
    (h : ParetoInv p) : ParetoInv (l.foldl paretoStep p) := by
  induction l generalizing p with
  | nil => exact h
  | cons c cs ih =>
    rw [List.foldl_cons]
    exact ih _ (paretoStep_inv p c h)

/-- C9 counterexample: on the two equal-complexity candidates
`⟨3, 0⟩, ⟨3, 1⟩` the emitted front is both of them, so complexity is *not*
strictly increasing along the front — the second is admitted against the
running maximum of the previously scanned equal-complexity member, not
against the maximum over smaller-complexity members only. -/
theorem pareto_front_equal_complexity_counterexample :
    calculate_pareto_front [⟨3, 0⟩, ⟨3, 1⟩] = [⟨3, 0⟩, ⟨3, 1⟩] ∧
    ¬ List.Chain' (fun a b : PCand => a.complexity < b.complexity)
      [⟨3, 0⟩, ⟨3, 1⟩] := by
  constructor
  · rfl
  · simp [List.chain'_cons]

/-- C9 amended: the final Pareto front is a subsequence of the candidates
sorted ascending by complexity, obtained by keeping exactly those whose
test R² strictly exceeds the running maximum test R² of all previously
scanned candidates (equal-complexity ones included); along the emitted
front the test R² is strictly increasing and the complexity is
nondecreasing (not necessarily strictly when complexities tie). -/
theorem pareto_front_amended_spec (cands : List PCand) :
    (calculate_pareto_front cands).Sublist (stableSort compLe cands) ∧
    List.Chain' (fun a b => a.testR2 < b.testR2)
      (calculate_pareto_front cands) ∧
    List.Chain' (fun a b => a.complexity ≤ b.complexity)
      (calculate_pareto_front cands) := by
  obtain ⟨s, hs, hsub⟩ :=
    foldl_paretoStep_sublist (stableSort compLe cands) [] none
  have hcp : calculate_pareto_front cands = s := by
    unfold calculate_pareto_front
    rw [hs, List.nil_append]
  have hinv : ParetoInv ((stableSort compLe cands).foldl paretoStep
      ([], none)) := by
    refine foldl_paretoStep_inv _ _ ⟨List.chain'_nil, fun _ => rfl, ?_⟩
    intro q hq
    cases hq
  refine ⟨hcp ▸ hsub, hinv.1, ?_⟩
  have hpair := stableSort_pairwise compLe compLe_total compLe_trans cands
  have hpair2 : (calculate_pareto_front cands).Pairwise
      (fun a b => compLe a b = true) := by
    rw [hcp]
    exact hpair.sublist hsub
  have hpair3 : (calculate_pareto_front cands).Pairwise
      (fun a b => a.complexity ≤ b.complexity) := by
    refine hpair2.imp ?_
    intro a b hab
    simpa [compLe] using hab
  exact hpair3.chain'

/-! ## Individual report (`GPEngine._individual_to_dict`, engine.py lines
306-385)

The conversion builds the report dict inside a `try`; the `except` branch
returns a fallback dict.  Only the `fitness` and `complexity` fields are
relevant to the sentinel behaviour; the update payloads
(`hall_of_fame` entries and `best`) are built from this conversion. -/

/-- An individual as seen by `_individual_to_dict`: fitness validity flag,
the stored fitness value, and the tree size. -/
structure RInd where
  valid : Bool
  fitnessVal : ℚ
  size : ℕ
deriving DecidableEq

/-- The report fields relevant to the fitness sentinel. -/
structure IndReport where
  fitness : ℚ
  complexity : ℕ
deriving DecidableEq

/-- `_individual_to_dict`, restricted to `fitness` and `complexity`: in the
normal path `fitness` is `float(individual.fitness.values[0])` when the
fitness is valid and `999.0` otherwise; when the conversion raises
(`raised = true`), the `except` fallback dict also reports `999.0`. -/
def individual_to_dict (raised : Bool) (ind : RInd) : IndReport :=
  if raised then { fitness := 999, complexity := ind.size }
  else
    { fitness := if ind.valid then ind.fitnessVal else 999,
      complexity := ind.size }

/-- C10: when the individual's fitness is invalid (not yet evaluated) or
the conversion itself raises, the reported fitness field is the sentinel
`999.0`, which is not the evaluation sentinel `1e10`; update payloads can
therefore carry fitness `999.0` for such individuals. -/
theorem individual_to_dict_fitness_sentinel (raised : Bool) (ind : RInd)
    (h : ind.valid = false ∨ raised = true) :
    (individual_to_dict raised ind).fitness = 999 ∧ (999 : ℚ) ≠ 1e10 := by
  constructor
  · unfold individual_to_dict
    rcases h with h | h
    · by_cases hr : raised = true
      · simp [hr]
      · simp [hr, h]
    · simp [h]
  · norm_num

/-- C10 witness: the sentinel theorem applied to an unevaluated individual
(`valid = false`) with no exception raised. -/
theorem individual_to_dict_fitness_sentinel_witness :
    ((⟨false, 3, 5⟩ : RInd).valid = false ∨ (false = true)) ∧
    ((individual_to_dict false ⟨false, 3, 5⟩).fitness = 999 ∧
      (999 : ℚ) ≠ 1e10) :=
  ⟨Or.inl rfl,
   individual_to_dict_fitness_sentinel false ⟨false, 3, 5⟩ (Or.inl rfl)⟩
